import Mathlib

/-!
# Verification of the Video2Sound audio assembly subsystem

Shallow embedding of the audio-processing core of the Video2Sound repository:
the 16-bit PCM sample conversions of `audioBufferToWavBlob`
(src/services/geminiService.ts), the track mixer `mixAudio` and the WAV
serializer `createWavBlob` (src/utils/audioUtils.ts), the tone generator and
base64 codec of the sound-effect catalog (src/unnamed/part_000), the timeline
stitcher `stitchAudioClips`, and the dialogue script parser `parseScript`
(src/App.tsx).  JavaScript numbers are modelled as exact rationals, with the
truncating and rounding conversions made explicit; all reachable values in the
statements below are exactly representable as IEEE doubles, so the rational
model is faithful at every input used.
-/

set_option maxRecDepth 8000

namespace Video2Sound

/-- Truncation toward zero: the integer conversion JavaScript applies in
`x | 0` (within int32 range) and in `ToIntegerOrInfinity`, on exact rationals. -/
def truncJS (q : ℚ) : ℤ := if 0 ≤ q then ⌊q⌋ else ⌈q⌉

/-- JavaScript `Math.round x = ⌊x + 1/2⌋`. -/
def jsRound (q : ℚ) : ℤ := ⌊q + 1/2⌋

/-- Clamp an integer sample to the signed 16-bit range, as in
`Math.max(-32768, Math.min(32767, sampleSum))` in `mixAudio`
(src/utils/audioUtils.ts line 66). -/
def clamp16 (x : ℤ) : ℤ := max (-32768) (min 32767 x)

/-- `Math.max(-1, Math.min(1, s))`: clamp a float sample to [-1, 1]
(src/services/geminiService.ts, `audioBufferToWavBlob`, the line
`sample = Math.max(-1, Math.min(1, channels[i][offset]))`). -/
def clamp1 (s : ℚ) : ℚ := max (-1) (min 1 s)

/-- One sample of `audioBufferToWavBlob`'s float-to-16-bit conversion
(src/services/geminiService.ts):
`sample = (0.5 + sample < 0 ? sample * 32768 : sample * 32767) | 0`
applied after the [-1,1] clamp.  By JavaScript operator precedence the
condition parses as `(0.5 + sample) < 0`. -/
def sampleToInt16 (s : ℚ) : ℤ :=
  let c := clamp1 s
  if 1/2 + c < 0 then truncJS (c * 32768) else truncJS (c * 32767)

/-- The conversion as claim C1 words it: after the same clamp, the scale
factor is chosen by the *sign* of the clamped sample (32768 for negative,
32767 for zero or positive), truncating to an integer. -/
def signBranchToInt16 (s : ℚ) : ℤ :=
  let c := clamp1 s
  if c < 0 then truncJS (c * 32768) else truncJS (c * 32767)

theorem truncJS_le_of_le (q : ℚ) (n : ℤ) (h : q ≤ (n : ℚ)) : truncJS q ≤ n := by
  unfold truncJS
  split
  · exact_mod_cast le_trans (Int.floor_le q) h
  · exact Int.ceil_le.mpr h

theorem le_truncJS_of_le (q : ℚ) (n : ℤ) (h : (n : ℚ) ≤ q) : n ≤ truncJS q := by
  unfold truncJS
  split
  · exact Int.le_floor.mpr h
  · exact_mod_cast le_trans h (Int.le_ceil q)

theorem clamp1_mem (s : ℚ) : -1 ≤ clamp1 s ∧ clamp1 s ≤ 1 := by
  unfold clamp1
  constructor
  · exact le_max_left _ _
  · exact max_le (by norm_num) (min_le_left _ _)

/-- C1 (counterexample): at the in-range sample -1/4 the code takes the
32767 branch, because `0.5 + (-1/4) < 0` is false, and stores -8191; the
sign-decided rule of the claim would take the 32768 branch and store -8192. -/
theorem c1_branch_counterexample :
    sampleToInt16 (-(1/4)) = -8191 ∧ signBranchToInt16 (-(1/4)) = -8192 ∧
      sampleToInt16 (-(1/4)) ≠ signBranchToInt16 (-(1/4)) := by
  have hc : clamp1 (-(1/4)) = -(1/4) := by
    unfold clamp1
    rw [min_eq_right (by norm_num), max_eq_right (by norm_num)]
  have h1 : sampleToInt16 (-(1/4)) = -8191 := by
    show (if 1/2 + clamp1 (-(1/4)) < 0 then truncJS (clamp1 (-(1/4)) * 32768)
          else truncJS (clamp1 (-(1/4)) * 32767)) = -8191
    rw [hc, if_neg (by norm_num)]
    have : (-(1/4) : ℚ) * 32767 = -(32767/4) := by norm_num
    rw [this]
    unfold truncJS
    rw [if_neg (by norm_num), Int.ceil_eq_iff]
    constructor <;> norm_num
  have h2 : signBranchToInt16 (-(1/4)) = -8192 := by
    show (if clamp1 (-(1/4)) < 0 then truncJS (clamp1 (-(1/4)) * 32768)
          else truncJS (clamp1 (-(1/4)) * 32767)) = -8192
    rw [hc, if_pos (by norm_num)]
    have : (-(1/4) : ℚ) * 32768 = ((-8192 : ℤ) : ℚ) := by norm_num
    rw [this]
    unfold truncJS
    rw [if_neg (by norm_num), Int.ceil_intCast]
  exact ⟨h1, h2, by rw [h1, h2]; decide⟩

/-- C1 (amended): the encoder first clamps the sample to [-1, 1] and then
branches on whether the clamped value is below -1/2 — not on its sign —
multiplying by 32768 when clamped < -1/2 and by 32767 otherwise, truncating
toward zero; the stored sample always lies in the 16-bit range. -/
theorem c1_scale_branch (s : ℚ) :
    sampleToInt16 s =
      (if clamp1 s < -(1/2) then truncJS (clamp1 s * 32768)
       else truncJS (clamp1 s * 32767)) ∧
    -32768 ≤ sampleToInt16 s ∧ sampleToInt16 s ≤ 32767 := by
  obtain ⟨hlo, hhi⟩ := clamp1_mem s
  have hbr : sampleToInt16 s =
      (if clamp1 s < -(1/2) then truncJS (clamp1 s * 32768)
       else truncJS (clamp1 s * 32767)) := by
    by_cases h : clamp1 s < -(1/2)
    · rw [if_pos h]
      show (if 1/2 + clamp1 s < 0 then truncJS (clamp1 s * 32768)
            else truncJS (clamp1 s * 32767)) = _
      rw [if_pos (by linarith)]
    · rw [if_neg h]
      show (if 1/2 + clamp1 s < 0 then truncJS (clamp1 s * 32768)
            else truncJS (clamp1 s * 32767)) = _
      rw [if_neg (by push_neg at h ⊢; linarith)]
  refine ⟨hbr, ?_, ?_⟩ <;> rw [hbr] <;> by_cases h : clamp1 s < -(1/2)
  · rw [if_pos h]
    exact le_truncJS_of_le _ _ (by push_cast; nlinarith)
  · rw [if_neg h]
    exact le_truncJS_of_le _ _ (by push_cast; nlinarith)
  · rw [if_pos h]
    exact truncJS_le_of_le _ _ (by push_cast; nlinarith)
  · rw [if_neg h]
    exact truncJS_le_of_le _ _ (by push_cast; nlinarith)

/-! ## Track mixer (`mixAudio`, src/utils/audioUtils.ts) -/

/-- `Math.max(...int16Tracks.map(t => t.length))` of `mixAudio`, as a fold
with neutral element 0 (the call sites always pass a nonempty list, where the
fold agrees with the JavaScript spread maximum). -/
def maxTrackLen (tracks : List (List ℤ)) : ℕ :=
  (tracks.map List.length).foldr max 0

/-- `mixAudio` (src/utils/audioUtils.ts lines 49-70) over 16-bit samples:
empty list gives an empty buffer, a single track is returned unchanged, and
otherwise each output index sums the tracks that still have a sample there
(`if (i < track.length) sampleSum += track[i]`) and clamps the sum. -/
def mixAudio (tracks : List (List ℤ)) : List ℤ :=
  match tracks with
  | [] => []
  | [t] => t
  | ts =>
      (List.range (maxTrackLen ts)).map fun i =>
        clamp16 ((ts.map fun t => if i < t.length then t.getD i 0 else 0).sum)

/-- C3: `mixAudio` returns an empty buffer for the empty track list, the
single track unchanged for one track, and for two or more tracks a buffer of
length equal to the maximum track length whose sample `i` is the clamped sum
of sample `i` of every track long enough to reach `i` (shorter tracks
contribute nothing past their end). -/
theorem c3_mix_characterization :
    mixAudio [] = [] ∧ (∀ t, mixAudio [t] = t) ∧
    ∀ ts, 2 ≤ ts.length →
      (mixAudio ts).length = maxTrackLen ts ∧
      ∀ i, i < maxTrackLen ts →
        (mixAudio ts).getD i 0 = clamp16 ((ts.map fun t => t.getD i 0).sum) := by
  refine ⟨rfl, fun t => rfl, ?_⟩
  rintro (_ | ⟨a, _ | ⟨b, l⟩⟩) h
  · simp at h
  · simp at h
  have hmix : mixAudio (a :: b :: l) =
      (List.range (maxTrackLen (a :: b :: l))).map fun i =>
        clamp16 (((a :: b :: l).map fun t =>
          if i < t.length then t.getD i 0 else 0).sum) := rfl
  refine ⟨by rw [hmix]; simp, ?_⟩
  intro i hi
  rw [hmix]
  rw [List.getD_eq_getElem?_getD, List.getElem?_map, List.getElem?_range hi]
  simp only [Option.map_some', Option.getD_some]
  congr 1
  congr 1
  apply List.map_congr_left
  intro t ht
  by_cases hlt : i < t.length
  · rw [if_pos hlt]
  · rw [if_neg hlt, List.getD_eq_default _ _ (by omega)]

/-- C3 witness: the characterization evaluated on two concrete tracks of
different lengths. -/
theorem c3_mix_characterization_witness :
    (mixAudio [[1000], [2000, 3000]]).length = maxTrackLen [[1000], [2000, 3000]] ∧
    (mixAudio [[1000], [2000, 3000]]).getD 0 0 =
      clamp16 (([[1000], [2000, 3000]].map fun t => t.getD 0 0).sum) ∧
    (mixAudio [[1000], [2000, 3000]]).getD 1 0 =
      clamp16 (([[1000], [2000, 3000]].map fun t => t.getD 1 0).sum) :=
  ⟨(c3_mix_characterization.2.2 [[1000], [2000, 3000]] (by norm_num)).1,
   (c3_mix_characterization.2.2 [[1000], [2000, 3000]] (by norm_num)).2 0
     (by norm_num [maxTrackLen]),
   (c3_mix_characterization.2.2 [[1000], [2000, 3000]] (by norm_num)).2 1
     (by norm_num [maxTrackLen])⟩

/-! ## Synthetic tone generator (`generateTone`, src/unnamed/part_000) -/

/-- `ToInt16`: the conversion JavaScript applies when a number is stored into
an `Int16Array` element — truncate toward zero, then wrap modulo 2^16 into
[-32768, 32767]. -/
def toInt16JS (q : ℚ) : ℤ :=
  let m := truncJS q % 65536
  if m < 32768 then m else m - 65536

/-- `generateTone` (src/unnamed/part_000 lines 33-44):
`value = Math.sin((i / SAMPLE_RATE) * frequency * 2 * Math.PI) * volume;
buffer[i] = value * 32767` over `frameCount = SAMPLE_RATE * DURATION_SECONDS
= 24000 * 2` samples.  `Math.sin` is implementation-approximated floating
point (ECMAScript fixes no bit-exact result), so it is abstracted as an
oracle `sinv` giving the double returned for sample `i`'s argument; every
conforming oracle has range within [-1, 1]. -/
def generateTone (sinv : ℕ → ℚ) (volume : ℚ) : List ℤ :=
  (List.range (24000 * 2)).map fun i => toInt16JS (sinv i * volume * 32767)

theorem generateTone_getD (sinv : ℕ → ℚ) (volume : ℚ) (i : ℕ)
    (hi : i < 24000 * 2) :
    (generateTone sinv volume).getD i 0 = toInt16JS (sinv i * volume * 32767) := by
  unfold generateTone
  rw [List.getD_eq_getElem?_getD, List.getElem?_map, List.getElem?_range hi]
  simp

theorem toInt16JS_eq_truncJS (q : ℚ) (h1 : -32768 ≤ truncJS q)
    (h2 : truncJS q ≤ 32767) : toInt16JS q = truncJS q := by
  simp only [toInt16JS]
  split <;> omega

/-- C4 (counterexample): a sine oracle constantly 1/2 (a value inside
Math.sin's range) at amplitude 1 makes the generator store
trunc(16383.5) = 16383, while the claimed formula round(16383.5) gives
16384: the stored sample is the truncation, not the rounding, of
sin·amplitude·32767. -/
theorem c4_round_counterexample :
    (∀ i, -1 ≤ (fun _ : ℕ => (1 : ℚ)/2) i ∧ (fun _ : ℕ => (1 : ℚ)/2) i ≤ 1) ∧
    (generateTone (fun _ => 1/2) 1).getD 0 0 = 16383 ∧
    jsRound ((1/2 : ℚ) * 1 * 32767) = 16384 ∧
    (generateTone (fun _ => 1/2) 1).getD 0 0 ≠ jsRound ((1/2 : ℚ) * 1 * 32767) := by
  have hv : ((1/2 : ℚ)) * 1 * 32767 = 32767/2 := by norm_num
  have htr : truncJS ((1/2 : ℚ) * 1 * 32767) = 16383 := by
    rw [hv]
    unfold truncJS
    rw [if_pos (by norm_num), Int.floor_eq_iff]
    constructor <;> norm_num
  have h1 : (generateTone (fun _ => 1/2) 1).getD 0 0 = 16383 := by
    rw [generateTone_getD _ _ 0 (by norm_num),
        toInt16JS_eq_truncJS _ (by rw [htr]; decide) (by rw [htr]; decide), htr]
  have h2 : jsRound ((1/2 : ℚ) * 1 * 32767) = 16384 := by
    rw [hv]
    unfold jsRound
    rw [show (32767/2 + 1/2 : ℚ) = ((16384 : ℤ) : ℚ) by norm_num, Int.floor_intCast]
  exact ⟨fun i => by norm_num, h1, h2, by rw [h1, h2]; decide⟩

/-- C4 (amended): for every conforming sine oracle and amplitude in [0, 1],
`generateTone` yields exactly 24000·2 = 48000 samples, sample `i` being the
truncation toward zero (not the rounding) of sin·amplitude·32767, always in
[-32767, 32767]; at amplitude 0 every sample is 0 for every oracle. -/
theorem c4_tone_shape (sinv : ℕ → ℚ) (volume : ℚ)
    (hs : ∀ i, -1 ≤ sinv i ∧ sinv i ≤ 1) (h0 : 0 ≤ volume) (h1 : volume ≤ 1) :
    (generateTone sinv volume).length = 24000 * 2 ∧
    (∀ i, i < 24000 * 2 →
      (generateTone sinv volume).getD i 0 = truncJS (sinv i * volume * 32767) ∧
      -32767 ≤ (generateTone sinv volume).getD i 0 ∧
      (generateTone sinv volume).getD i 0 ≤ 32767) ∧
    (volume = 0 → ∀ i, (generateTone sinv volume).getD i 0 = 0) := by
  have hmain : ∀ i, i < 24000 * 2 →
      (generateTone sinv volume).getD i 0 = truncJS (sinv i * volume * 32767) ∧
      -32767 ≤ (generateTone sinv volume).getD i 0 ∧
      (generateTone sinv volume).getD i 0 ≤ 32767 := by
    intro i hi
    obtain ⟨hsl, hsu⟩ := hs i
    have hql : (-32767 : ℚ) ≤ sinv i * volume * 32767 := by nlinarith
    have hqu : sinv i * volume * 32767 ≤ (32767 : ℚ) := by nlinarith
    have htl : (-32767 : ℤ) ≤ truncJS (sinv i * volume * 32767) := by
      apply le_truncJS_of_le
      push_cast
      linarith
    have htu : truncJS (sinv i * volume * 32767) ≤ (32767 : ℤ) := by
      apply truncJS_le_of_le
      push_cast
      linarith
    have heq : (generateTone sinv volume).getD i 0 =
        truncJS (sinv i * volume * 32767) := by
      rw [generateTone_getD _ _ i hi, toInt16JS_eq_truncJS _ (by omega) htu]
    exact ⟨heq, by omega, by omega⟩
  have hlen : (generateTone sinv volume).length = 24000 * 2 := by
    unfold generateTone; simp
  refine ⟨hlen, hmain, ?_⟩
  rintro rfl i
  by_cases hi : i < 24000 * 2
  · rw [(hmain i hi).1]
    have : sinv i * 0 * 32767 = 0 := by ring
    rw [this]
    unfold truncJS
    rw [if_pos le_rfl, Int.floor_zero]
  · exact List.getD_eq_default _ _ (by omega)

/-- C4 witness: the amended statement evaluated at the zero oracle and zero
amplitude. -/
theorem c4_tone_shape_witness :
    (generateTone (fun _ => 0) 0).length = 24000 * 2 ∧
    (generateTone (fun _ => 0) 0).getD 7 0 = 0 :=
  ⟨(c4_tone_shape (fun _ => 0) 0 (fun i => by norm_num) le_rfl (by norm_num)).1,
   (c4_tone_shape (fun _ => 0) 0 (fun i => by norm_num) le_rfl
      (by norm_num)).2.2 rfl 7⟩

/-! ## Timeline stitcher (`stitchAudioClips`, src/services/geminiService.ts)

The stitcher decodes each clip's bytes to normalized floats
(`decodeAudioData`: 16-bit sample / 32768.0), schedules one
`AudioBufferSourceNode` per clip at `clip.time` on an `OfflineAudioContext`,
renders, and re-encodes with `audioBufferToWavBlob`.  The summing of
overlapping sources and the rejection of negative start times happen inside
the Web Audio implementation, not in repository code, so they are modelled
from the spec below; the re-encoding reuses `sampleToInt16`, translated from
`audioBufferToWavBlob` above.  Clips are modelled at the 16-bit sample level
(the result of `decodeAudioData`'s `Int16Array` view of the clip bytes). -/

/-- A clip handed to the stitcher: a placement time in seconds and its
decoded 16-bit samples. -/
structure AudioClip where
  time : ℚ
  samples : List ℤ

/-- Spec §7 error kind for a clip with invalid placement time. -/
inductive StitchError
  | invalidClipPlacement
deriving DecidableEq

/-- Modelled from the spec: the contribution of one scheduled source to
output sample `i` of the offline render — the clip is placed at sample
offset round(time · rate) (spec §4.5), covers `samples.length` frames, and
plays its normalized samples (sample / 32768.0, from `decodeAudioData`);
elsewhere it contributes silence.  All reachable normalized values and
two-clip sums are exact in float32, so rational arithmetic is faithful. -/
def clipContrib (rate : ℚ) (i : ℕ) (c : AudioClip) : ℚ :=
  let off := jsRound (c.time * rate)
  if off ≤ (i : ℤ) ∧ (i : ℤ) < off + c.samples.length
  then (c.samples.getD ((i : ℤ) - off).toNat 0 : ℚ) / 32768
  else 0

/-- Modelled from the spec: the offline render sums the contributions of all
scheduled sources at each output frame (spec §4.5: clips *add*, never
overwrite). -/
def renderedSample (clips : List AudioClip) (rate : ℚ) (i : ℕ) : ℚ :=
  (clips.map (clipContrib rate i)).sum

/-- `stitchAudioClips` (src/services/geminiService.ts lines 236-261).  The
output track has `ceil(totalDuration * rate)` frames (the
`OfflineAudioContext` length).  Modelled from the spec for the parts the
browser supplies: `AudioBufferSourceNode.start` rejects a negative start
time, which spec §4.5/§7 classify as `InvalidClipPlacement`; rendering sums
the sources.  The final 16-bit samples go through `audioBufferToWavBlob`'s
conversion (`sampleToInt16`). -/
def stitchAudioClips (clips : List AudioClip) (totalDuration : ℚ)
    (rate : ℚ) : Except StitchError (List ℤ) :=
  if clips.any fun c => decide (c.time < 0) then
    Except.error StitchError.invalidClipPlacement
  else
    Except.ok ((List.range ⌈totalDuration * rate⌉.toNat).map fun i =>
      sampleToInt16 (renderedSample clips rate i))

theorem stitchAudioClips_ok (clips : List AudioClip) (dur rate : ℚ)
    (h : ∀ c ∈ clips, 0 ≤ c.time) :
    stitchAudioClips clips dur rate =
      Except.ok ((List.range ⌈dur * rate⌉.toNat).map fun i =>
        sampleToInt16 (renderedSample clips rate i)) := by
  unfold stitchAudioClips
  rw [if_neg]
  simp only [List.any_eq_true, decide_eq_true_eq, not_exists, not_and]
  intro c hc
  exact not_lt.mpr (h c hc)

/-- C7: a clip list containing a clip with negative placement time makes the
stitch fail with `InvalidClipPlacement` instead of placing or wrapping the
clip. -/
theorem c7_negative_time_rejected (clips : List AudioClip) (dur rate : ℚ)
    (h : ∃ c ∈ clips, c.time < 0) :
    stitchAudioClips clips dur rate =
      Except.error StitchError.invalidClipPlacement := by
  unfold stitchAudioClips
  rw [if_pos]
  rw [List.any_eq_true]
  obtain ⟨c, hc, hneg⟩ := h
  exact ⟨c, hc, by simpa using hneg⟩

/-- C7 witness: a concrete clip at time -1 is rejected. -/
theorem c7_negative_time_rejected_witness :
    stitchAudioClips [⟨-1, [0]⟩] 1 24000 =
      Except.error StitchError.invalidClipPlacement :=
  c7_negative_time_rejected [⟨-1, [0]⟩] 1 24000
    ⟨⟨-1, [0]⟩, by simp, by norm_num⟩

theorem jsRound_zero_mul (rate : ℚ) : jsRound (0 * rate) = 0 := by
  unfold jsRound
  rw [show (0 : ℚ) * rate + 1/2 = 1/2 by ring, Int.floor_eq_iff]
  constructor <;> norm_num

theorem sampleToInt16_half : sampleToInt16 (1/2) = 16383 := by
  have hc : clamp1 (1/2 : ℚ) = 1/2 := by
    unfold clamp1
    rw [min_eq_right (by norm_num), max_eq_right (by norm_num)]
  show (if 1/2 + clamp1 (1/2 : ℚ) < 0 then truncJS (clamp1 (1/2 : ℚ) * 32768)
        else truncJS (clamp1 (1/2 : ℚ) * 32767)) = 16383
  rw [hc, if_neg (by norm_num),
      show (1/2 : ℚ) * 32767 = 32767/2 by norm_num]
  unfold truncJS
  rw [if_pos (by norm_num), Int.floor_eq_iff]
  constructor <;> norm_num

/-- C2 (counterexample): two one-sample clips with value 8192 placed at the
same time 0 produce the output sample 16383 — the re-encoding of the
normalized sum 0.5 — while the sample-wise 16-bit-clamped sum of the claim
is clamp16(8192 + 8192) = 16384; the claimed equality fails by one unit even
though both clips audibly contribute. -/
theorem c2_overlap_counterexample :
    stitchAudioClips [⟨0, [8192]⟩, ⟨0, [8192]⟩] (1/24000) 24000 =
      Except.ok [16383] ∧
    clamp16 (8192 + 8192) = 16384 ∧
    stitchAudioClips [⟨0, [8192]⟩, ⟨0, [8192]⟩] (1/24000) 24000 ≠
      Except.ok [clamp16 (8192 + 8192)] := by
  have hclamp : clamp16 (8192 + 8192) = 16384 := by
    unfold clamp16
    rw [show (8192 + 8192 : ℤ) = 16384 by norm_num,
        min_eq_right (by norm_num), max_eq_right (by norm_num)]
  have hcontrib : clipContrib 24000 0 ⟨0, [8192]⟩ = 1/4 := by
    unfold clipContrib
    rw [jsRound_zero_mul]
    rw [if_pos (by constructor <;> simp)]
    norm_num
  have hrend : renderedSample [⟨0, [8192]⟩, ⟨0, [8192]⟩] 24000 0 = 1/2 := by
    unfold renderedSample
    rw [List.map_cons, List.map_cons, List.map_nil, List.sum_cons,
        List.sum_cons, List.sum_nil, hcontrib]
    norm_num
  have hceil : (⌈(1/24000 : ℚ) * 24000⌉).toNat = 1 := by
    rw [show (1/24000 : ℚ) * 24000 = 1 by norm_num, Int.ceil_one]
    rfl
  have h1 : stitchAudioClips [⟨0, [8192]⟩, ⟨0, [8192]⟩] (1/24000) 24000 =
      Except.ok [16383] := by
    rw [stitchAudioClips_ok _ _ _ (by
          intro c hc
          simp only [List.mem_cons, List.not_mem_nil, or_false] at hc
          rcases hc with rfl | rfl <;> exact le_rfl), hceil]
    rw [show List.range 1 = [0] from rfl, List.map_cons, List.map_nil,
        hrend, sampleToInt16_half]
  refine ⟨h1, hclamp, ?_⟩
  rw [h1, hclamp]
  intro hbad
  simp only [Except.ok.injEq, List.cons.injEq, and_true] at hbad
  omega

/-- C2 (amended): for two clips of equal sample length placed at the same
nonnegative time, every overlapped output sample depends on *both* clips —
neither overwrites the other: it is the 16-bit re-encoding (clamp to [-1,1],
asymmetric 32767/32768 scaling, truncation) of the sum of the two clips'
normalized samples, which can differ from the 16-bit-clamped integer sum by
one least-significant unit. -/
theorem c2_overlap_sum (a b : AudioClip) (dur rate : ℚ) (i : ℕ)
    (htime : a.time = b.time) (hpos : 0 ≤ a.time)
    (hlen : a.samples.length = b.samples.length)
    (hout : i < ⌈dur * rate⌉.toNat)
    (hlo : jsRound (a.time * rate) ≤ (i : ℤ))
    (hhi : (i : ℤ) < jsRound (a.time * rate) + a.samples.length) :
    ∃ out, stitchAudioClips [a, b] dur rate = Except.ok out ∧
      out.getD i 0 = sampleToInt16
        (((a.samples.getD ((i : ℤ) - jsRound (a.time * rate)).toNat 0 +
           b.samples.getD ((i : ℤ) - jsRound (a.time * rate)).toNat 0 : ℤ) : ℚ)
          / 32768) := by
  have hok := stitchAudioClips_ok [a, b] dur rate
    (by intro c hc
        simp only [List.mem_cons, List.not_mem_nil, or_false] at hc
        rcases hc with rfl | rfl
        · exact hpos
        · rw [← htime]; exact hpos)
  refine ⟨_, hok, ?_⟩
  rw [List.getD_eq_getElem?_getD, List.getElem?_map, List.getElem?_range hout]
  simp only [Option.map_some', Option.getD_some]
  have hca : clipContrib rate i a =
      (a.samples.getD ((i : ℤ) - jsRound (a.time * rate)).toNat 0 : ℚ) / 32768 := by
    unfold clipContrib
    rw [if_pos ⟨hlo, hhi⟩]
  have hcb : clipContrib rate i b =
      (b.samples.getD ((i : ℤ) - jsRound (a.time * rate)).toNat 0 : ℚ) / 32768 := by
    unfold clipContrib
    rw [← htime, if_pos ⟨hlo, by rw [← hlen]; exact hhi⟩]
  have hrend : renderedSample [a, b] rate i =
      ((a.samples.getD ((i : ℤ) - jsRound (a.time * rate)).toNat 0 +
        b.samples.getD ((i : ℤ) - jsRound (a.time * rate)).toNat 0 : ℤ) : ℚ)
        / 32768 := by
    unfold renderedSample
    rw [List.map_cons, List.map_cons, List.map_nil, List.sum_cons,
        List.sum_cons, List.sum_nil, hca, hcb]
    push_cast
    ring
  rw [hrend]

/-- C2 witness: the amended overlap statement evaluated on two concrete
one-sample clips at time 0. -/
theorem c2_overlap_sum_witness :
    ∃ out, stitchAudioClips [⟨0, [100]⟩, ⟨0, [200]⟩] (1/24000) 24000 =
        Except.ok out ∧
      out.getD 0 0 = sampleToInt16
        ((((⟨0, [100]⟩ : AudioClip).samples.getD
             ((0 : ℤ) - jsRound ((⟨0, [100]⟩ : AudioClip).time * 24000)).toNat 0 +
           (⟨0, [200]⟩ : AudioClip).samples.getD
             ((0 : ℤ) - jsRound ((⟨0, [100]⟩ : AudioClip).time * 24000)).toNat 0 : ℤ) : ℚ)
          / 32768) := by
  have hc : (⌈(1/24000 : ℚ) * 24000⌉).toNat = 1 := by
    rw [show (1/24000 : ℚ) * 24000 = 1 by norm_num, Int.ceil_one]
    rfl
  exact c2_overlap_sum ⟨0, [100]⟩ ⟨0, [200]⟩ (1/24000) 24000 0 rfl le_rfl rfl
    (by rw [hc]; norm_num)
    (by rw [jsRound_zero_mul]; norm_num)
    (by rw [jsRound_zero_mul]; simp)

/-! ## WAV serializer (`createWavBlob`, src/utils/audioUtils.ts) -/

/-- JavaScript `ToUint16`, applied by `DataView.setUint16`: truncate toward
zero, wrap modulo 2^16. -/
def toU16 (q : ℚ) : ℕ := (truncJS q % 65536).toNat

/-- JavaScript `ToUint32`, applied by `DataView.setUint32`: truncate toward
zero, wrap modulo 2^32. -/
def toU32 (q : ℚ) : ℕ := (truncJS q % 4294967296).toNat

/-- The two bytes of a little-endian `setUint16` write. -/
def u16le (q : ℚ) : List ℕ :=
  let n := toU16 q
  [n % 256, n / 256 % 256]

/-- The four bytes of a little-endian `setUint32` write. -/
def u32le (q : ℚ) : List ℕ :=
  let n := toU32 q
  [n % 256, n / 256 % 256, n / 65536 % 256, n / 16777216 % 256]

/-- `writeString` (src/utils/audioUtils.ts lines 73-77): one byte per
character code. -/
def writeStringBytes (s : String) : List ℕ := s.toList.map Char.toNat

def riffStr : String := "RIFF"

def waveStr : String := "WAVE"

def fmtStr : String := "fmt "

def dataStr : String := "data"

/-- `createWavBlob` (src/utils/audioUtils.ts lines 87-125).  The source
writes header fields at the consecutive explicit offsets 0, 4, 8, 12, 16,
20, 22, 24, 28, 32, 34, 36, 40 and the data bytes at 44+i, covering the
whole `44 + dataSize` buffer, so the sequence of writes is translated as a
concatenation.  `blockAlign = (numChannels * bitsPerSample) / 8` and
`byteRate = sampleRate * blockAlign` are JavaScript number (exact rational)
computations, truncated and wrapped only by the `DataView` setters; data
bytes pass through `setUint8` (mod 256). -/
def createWavBlob (pcmData : List ℕ)
    (sampleRate numChannels bitsPerSample : ℕ) : List ℕ :=
  let dataSize : ℕ := pcmData.length
  let blockAlign : ℚ := (numChannels * bitsPerSample : ℚ) / 8
  let byteRate : ℚ := (sampleRate : ℚ) * blockAlign
  writeStringBytes riffStr ++ u32le ((36 + dataSize : ℕ) : ℚ) ++
  writeStringBytes waveStr ++
  writeStringBytes fmtStr ++ u32le 16 ++ u16le 1 ++
  u16le (numChannels : ℚ) ++ u32le (sampleRate : ℚ) ++
  u32le byteRate ++ u16le blockAlign ++ u16le (bitsPerSample : ℚ) ++
  writeStringBytes dataStr ++ u32le ((dataSize : ℕ) : ℚ) ++
  pcmData.map (· % 256)

/-- Little-endian 16-bit read-back used to state the header layout. -/
def readU16le (bytes : List ℕ) (off : ℕ) : ℕ :=
  bytes.getD off 0 + 256 * bytes.getD (off + 1) 0

/-- Little-endian 32-bit read-back used to state the header layout. -/
def readU32le (bytes : List ℕ) (off : ℕ) : ℕ :=
  bytes.getD off 0 + 256 * bytes.getD (off + 1) 0 +
  65536 * bytes.getD (off + 2) 0 + 16777216 * bytes.getD (off + 3) 0

theorem truncJS_natCast (n : ℕ) : truncJS (n : ℚ) = n := by
  unfold truncJS
  rw [if_pos (by positivity), Int.floor_natCast]

theorem toU16_natCast (n : ℕ) : toU16 (n : ℚ) = n % 65536 := by
  unfold toU16
  rw [truncJS_natCast]
  omega

theorem toU32_natCast (n : ℕ) : toU32 (n : ℚ) = n % 4294967296 := by
  unfold toU32
  rw [truncJS_natCast]
  omega

theorem toU16_lt (q : ℚ) : toU16 q < 65536 := by
  unfold toU16
  have h1 := Int.emod_nonneg (truncJS q) (by norm_num : (65536 : ℤ) ≠ 0)
  have h2 := Int.emod_lt_of_pos (truncJS q) (by norm_num : (0 : ℤ) < 65536)
  omega

theorem toU32_lt (q : ℚ) : toU32 q < 4294967296 := by
  unfold toU32
  have h1 := Int.emod_nonneg (truncJS q) (by norm_num : (4294967296 : ℤ) ≠ 0)
  have h2 := Int.emod_lt_of_pos (truncJS q) (by norm_num : (0 : ℤ) < 4294967296)
  omega

theorem getD_zero_drop (l : List ℕ) (k i : ℕ) :
    (l.drop k).getD i 0 = l.getD (k + i) 0 := by
  rw [List.getD_eq_getElem?_getD, List.getD_eq_getElem?_getD,
      List.getElem?_drop]

theorem readU16le_shift (l : List ℕ) (k : ℕ) :
    readU16le l k = readU16le (l.drop k) 0 := by
  unfold readU16le
  simp only [getD_zero_drop, Nat.add_zero, Nat.zero_add]

theorem readU32le_shift (l : List ℕ) (k : ℕ) :
    readU32le l k = readU32le (l.drop k) 0 := by
  unfold readU32le
  simp only [getD_zero_drop, Nat.add_zero, Nat.zero_add]

theorem readU16le_bytes (n : ℕ) (rest : List ℕ) :
    readU16le (n % 256 :: n / 256 % 256 :: rest) 0 = n % 65536 := by
  show n % 256 + 256 * (n / 256 % 256) = n % 65536
  omega

theorem readU32le_bytes (n : ℕ) (rest : List ℕ) :
    readU32le (n % 256 :: n / 256 % 256 :: n / 65536 % 256 ::
      n / 16777216 % 256 :: rest) 0 = n % 4294967296 := by
  show n % 256 + 256 * (n / 256 % 256) + 65536 * (n / 65536 % 256) +
      16777216 * (n / 16777216 % 256) = n % 4294967296
  omega

theorem toU32_lit16 : toU32 (16 : ℚ) = 16 := by
  unfold toU32 truncJS
  rw [if_pos (by norm_num),
      show ((16 : ℚ)) = ((16 : ℤ) : ℚ) by norm_num, Int.floor_intCast]
  rfl

theorem toU16_lit1 : toU16 (1 : ℚ) = 1 := by
  unfold toU16 truncJS
  rw [if_pos (by norm_num),
      show ((1 : ℚ)) = ((1 : ℤ) : ℚ) by norm_num, Int.floor_intCast]
  rfl

set_option maxHeartbeats 1600000 in
/-- C5: `createWavBlob` emits exactly 44 + dataSize bytes: "RIFF", the
little-endian uint32 chunk size 36 + dataSize, "WAVE", a 16-byte "fmt "
sub-chunk with PCM format code 1, the channel count, the sample rate,
byteRate = sampleRate · blockAlign, blockAlign = numChannels ·
bitsPerSample / 8, bitsPerSample, then "data", the little-endian uint32
dataSize, and the PCM bytes unchanged; all multi-byte fields little-endian
(stated by reading each field back, with the `DataView` setters' uint
wrapping made explicit). -/
theorem c5_wav_layout (pcm : List ℕ) (sr nc bps : ℕ)
    (hbytes : ∀ b ∈ pcm, b < 256) :
    (createWavBlob pcm sr nc bps).length = 44 + pcm.length ∧
    (createWavBlob pcm sr nc bps).take 4 = writeStringBytes riffStr ∧
    readU32le (createWavBlob pcm sr nc bps) 4 =
      (36 + pcm.length) % 4294967296 ∧
    ((createWavBlob pcm sr nc bps).drop 8).take 4 = writeStringBytes waveStr ∧
    ((createWavBlob pcm sr nc bps).drop 12).take 4 = writeStringBytes fmtStr ∧
    readU32le (createWavBlob pcm sr nc bps) 16 = 16 ∧
    readU16le (createWavBlob pcm sr nc bps) 20 = 1 ∧
    readU16le (createWavBlob pcm sr nc bps) 22 = nc % 65536 ∧
    readU32le (createWavBlob pcm sr nc bps) 24 = sr % 4294967296 ∧
    readU32le (createWavBlob pcm sr nc bps) 28 =
      toU32 ((sr : ℚ) * ((nc : ℚ) * (bps : ℚ) / 8)) ∧
    readU16le (createWavBlob pcm sr nc bps) 32 =
      toU16 ((nc : ℚ) * (bps : ℚ) / 8) ∧
    readU16le (createWavBlob pcm sr nc bps) 34 = bps % 65536 ∧
    ((createWavBlob pcm sr nc bps).drop 36).take 4 = writeStringBytes dataStr ∧
    readU32le (createWavBlob pcm sr nc bps) 40 = pcm.length % 4294967296 ∧
    (createWavBlob pcm sr nc bps).drop 44 = pcm := by
  have hdrop44 : (createWavBlob pcm sr nc bps).drop 44 = pcm.map (· % 256) :=
    rfl
  refine ⟨?_, rfl, ?_, rfl, rfl, ?_, ?_, ?_, ?_, ?_, ?_, ?_, rfl, ?_, ?_⟩
  · conv_lhs => rw [← List.take_append_drop 44 (createWavBlob pcm sr nc bps)]
    rw [List.length_append,
        show ((createWavBlob pcm sr nc bps).take 44).length = 44 from rfl,
        hdrop44, List.length_map]
  · rw [readU32le_shift]
    have hb : readU32le ((createWavBlob pcm sr nc bps).drop 4) 0 =
        toU32 ((36 + pcm.length : ℕ) : ℚ) % 4294967296 := readU32le_bytes _ _
    rw [hb, toU32_natCast]
    omega
  · rw [readU32le_shift]
    have hb : readU32le ((createWavBlob pcm sr nc bps).drop 16) 0 =
        toU32 (16 : ℚ) % 4294967296 := readU32le_bytes _ _
    rw [hb, toU32_lit16]
  · rw [readU16le_shift]
    have hb : readU16le ((createWavBlob pcm sr nc bps).drop 20) 0 =
        toU16 (1 : ℚ) % 65536 := readU16le_bytes _ _
    rw [hb, toU16_lit1]
  · rw [readU16le_shift]
    have hb : readU16le ((createWavBlob pcm sr nc bps).drop 22) 0 =
        toU16 ((nc : ℕ) : ℚ) % 65536 := readU16le_bytes _ _
    rw [hb, toU16_natCast]
    omega
  · rw [readU32le_shift]
    have hb : readU32le ((createWavBlob pcm sr nc bps).drop 24) 0 =
        toU32 ((sr : ℕ) : ℚ) % 4294967296 := readU32le_bytes _ _
    rw [hb, toU32_natCast]
    omega
  · rw [readU32le_shift]
    have hb : readU32le ((createWavBlob pcm sr nc bps).drop 28) 0 =
        toU32 ((sr : ℚ) * ((nc : ℚ) * (bps : ℚ) / 8)) % 4294967296 :=
      readU32le_bytes _ _
    rw [hb, Nat.mod_eq_of_lt (toU32_lt _)]
  · rw [readU16le_shift]
    have hb : readU16le ((createWavBlob pcm sr nc bps).drop 32) 0 =
        toU16 ((nc : ℚ) * (bps : ℚ) / 8) % 65536 := readU16le_bytes _ _
    rw [hb, Nat.mod_eq_of_lt (toU16_lt _)]
  · rw [readU16le_shift]
    have hb : readU16le ((createWavBlob pcm sr nc bps).drop 34) 0 =
        toU16 ((bps : ℕ) : ℚ) % 65536 := readU16le_bytes _ _
    rw [hb, toU16_natCast]
    omega
  · rw [readU32le_shift]
    have hb : readU32le ((createWavBlob pcm sr nc bps).drop 40) 0 =
        toU32 ((pcm.length : ℕ) : ℚ) % 4294967296 := readU32le_bytes _ _
    rw [hb, toU32_natCast]
    omega
  · rw [hdrop44]
    have : pcm.map (· % 256) = pcm.map id :=
      List.map_congr_left fun b hb => Nat.mod_eq_of_lt (hbytes b hb)
    rw [this, List.map_id]

set_option maxHeartbeats 1600000 in
/-- C5 witness: the layout statement evaluated on a concrete two-byte
payload at the repository's 24000 Hz mono 16-bit parameters. -/
theorem c5_wav_layout_witness :
    (createWavBlob [1, 2] 24000 1 16).length = 44 + [1, 2].length ∧
    readU32le (createWavBlob [1, 2] 24000 1 16) 28 =
      toU32 ((24000 : ℕ) * (((1 : ℕ) : ℚ) * ((16 : ℕ) : ℚ) / 8)) ∧
    (createWavBlob [1, 2] 24000 1 16).drop 44 = [1, 2] := by
  have h := c5_wav_layout [1, 2] 24000 1 16 (by decide)
  exact ⟨h.1, h.2.2.2.2.2.2.2.2.2.1, h.2.2.2.2.2.2.2.2.2.2.2.2.2.2⟩

/-! ## Base64 codec (`encode`, src/unnamed/part_000; `decode`,
src/utils/audioUtils.ts)

`encode` builds a byte-per-character binary string and calls the platform's
`btoa`; `decode` calls `atob` and reads the character codes back into bytes.
`btoa` is the platform's standard base64 encoder and `atob` the WHATWG
forgiving-base64 decoder — platform primitives, not repository code — so
both are modelled from the spec (§4.1: "delegate to a standard library
implementation").  The byte/string conversions on either side are the
identity on byte values, so the codec is modelled directly on byte lists. -/

/-- The standard base64 alphabet as character codes: A-Z, a-z, 0-9, +, /. -/
def b64alphabet : List ℕ :=
  [65, 66, 67, 68, 69, 70, 71, 72, 73, 74, 75, 76, 77, 78, 79, 80, 81, 82,
   83, 84, 85, 86, 87, 88, 89, 90,
   97, 98, 99, 100, 101, 102, 103, 104, 105, 106, 107, 108, 109, 110, 111,
   112, 113, 114, 115, 116, 117, 118, 119, 120, 121, 122,
   48, 49, 50, 51, 52, 53, 54, 55, 56, 57, 43, 47]

/-- Character code of a 6-bit value. -/
def b64char (v : ℕ) : ℕ := b64alphabet.getD v 0

/-- 6-bit value of a character code; `none` for non-alphabet characters
(including the padding '='), which forgiving-base64 rejects. -/
def b64val (c : ℕ) : Option ℕ := b64alphabet.findIdx? (· == c)

/-- ASCII whitespace removed by forgiving-base64 decode. -/
def isB64Ws (c : ℕ) : Bool :=
  c == 9 || c == 10 || c == 12 || c == 13 || c == 32

/-- Modelled from the spec: `btoa` — standard base64 encoding, three bytes
to four characters, with '=' (code 61) padding for a final group of one or
two bytes. -/
def encodeB64 : List ℕ → List ℕ
  | [] => []
  | [a] => [b64char (a / 4), b64char (a % 4 * 16), 61, 61]
  | [a, b] => [b64char (a / 4), b64char (a % 4 * 16 + b / 16),
               b64char (b % 16 * 4), 61]
  | a :: b :: c :: rest =>
      b64char (a / 4) :: b64char (a % 4 * 16 + b / 16) ::
      b64char (b % 16 * 4 + c / 64) :: b64char (c % 64) :: encodeB64 rest

/-- Modelled from the spec: the padding-removal step of forgiving-base64 —
when the length is a multiple of four, up to two trailing '=' are removed. -/
def stripPad (s : List ℕ) : List ℕ :=
  if s.length % 4 = 0 then
    if s.getLast? = some 61 then
      if s.dropLast.getLast? = some 61 then s.dropLast.dropLast
      else s.dropLast
    else s
  else s

/-- Modelled from the spec: reassembling bytes from 6-bit values — complete
groups of four give three bytes, a final group of two or three gives one or
two bytes, a final group of one is an error. -/
def bytesOfSextets : List ℕ → Option (List ℕ)
  | [] => some []
  | [_] => none
  | [s1, s2] => some [s1 * 4 + s2 / 16]
  | [s1, s2, s3] => some [s1 * 4 + s2 / 16, s2 % 16 * 16 + s3 / 4]
  | s1 :: s2 :: s3 :: s4 :: rest =>
      (bytesOfSextets rest).map fun bs =>
        (s1 * 4 + s2 / 16) :: (s2 % 16 * 16 + s3 / 4) ::
        (s3 % 4 * 64 + s4) :: bs

/-- Modelled from the spec: `atob` (forgiving-base64 decode) — remove ASCII
whitespace, strip padding, reject length ≡ 1 (mod 4) and non-alphabet
characters, then reassemble the bytes. -/
def decodeB64 (s : List ℕ) : Option (List ℕ) :=
  if (stripPad (s.filter fun c => !isB64Ws c)).length % 4 = 1 then none
  else ((stripPad (s.filter fun c => !isB64Ws c)).mapM b64val).bind
    bytesOfSextets

theorem b64_alphabet_facts :
    ∀ v : Fin 64, b64val (b64char v.1) = some v.1 ∧ b64char v.1 ≠ 61 ∧
      isB64Ws (b64char v.1) = false := by decide

theorem b64val_b64char {v : ℕ} (h : v < 64) : b64val (b64char v) = some v :=
  (b64_alphabet_facts ⟨v, h⟩).1

theorem b64char_ne_pad {v : ℕ} (h : v < 64) : b64char v ≠ 61 :=
  (b64_alphabet_facts ⟨v, h⟩).2.1

theorem b64char_not_ws (v : ℕ) : isB64Ws (b64char v) = false := by
  by_cases h : v < 64
  · exact (b64_alphabet_facts ⟨v, h⟩).2.2
  · unfold b64char
    rw [List.getD_eq_default _ _ (by
      rw [show b64alphabet.length = 64 from rfl]; omega)]
    rfl

theorem encodeB64_nil : encodeB64 [] = [] := by simp [encodeB64]

theorem encodeB64_one (a : ℕ) :
    encodeB64 [a] = [b64char (a / 4), b64char (a % 4 * 16), 61, 61] := by
  simp [encodeB64]

theorem encodeB64_two (a b : ℕ) :
    encodeB64 [a, b] = [b64char (a / 4), b64char (a % 4 * 16 + b / 16),
      b64char (b % 16 * 4), 61] := by
  simp [encodeB64]

theorem encodeB64_cons3 (a b c : ℕ) (rest : List ℕ) :
    encodeB64 (a :: b :: c :: rest) =
      b64char (a / 4) :: b64char (a % 4 * 16 + b / 16) ::
      b64char (b % 16 * 4 + c / 64) :: b64char (c % 64) ::
      encodeB64 rest := by
  simp [encodeB64]

theorem encodeB64_length_mod (l : List ℕ) : (encodeB64 l).length % 4 = 0 := by
  induction l using encodeB64.induct with
  | case1 => rw [encodeB64_nil]; rfl
  | case2 a => rw [encodeB64_one]; simp
  | case3 a b => rw [encodeB64_two]; simp
  | case4 a b c rest ih =>
      rw [encodeB64_cons3]
      simp only [List.length_cons]
      omega

theorem encodeB64_eq_nil_iff (l : List ℕ) : encodeB64 l = [] ↔ l = [] := by
  rcases l with _ | ⟨a, _ | ⟨b, _ | ⟨c, r⟩⟩⟩ <;>
    simp [encodeB64_nil, encodeB64_one, encodeB64_two, encodeB64_cons3]

theorem encodeB64_mem_shape (l : List ℕ) :
    ∀ c ∈ encodeB64 l, c = 61 ∨ ∃ v, c = b64char v := by
  induction l using encodeB64.induct with
  | case1 => rw [encodeB64_nil]; intro c hc; simp at hc
  | case2 a =>
      rw [encodeB64_one]
      intro c hc
      simp only [List.mem_cons, List.not_mem_nil, or_false] at hc
      rcases hc with rfl | rfl | rfl | rfl
      · exact Or.inr ⟨_, rfl⟩
      · exact Or.inr ⟨_, rfl⟩
      · exact Or.inl rfl
      · exact Or.inl rfl
  | case3 a b =>
      rw [encodeB64_two]
      intro c hc
      simp only [List.mem_cons, List.not_mem_nil, or_false] at hc
      rcases hc with rfl | rfl | rfl | rfl
      · exact Or.inr ⟨_, rfl⟩
      · exact Or.inr ⟨_, rfl⟩
      · exact Or.inr ⟨_, rfl⟩
      · exact Or.inl rfl
  | case4 a b c rest ih =>
      rw [encodeB64_cons3]
      intro x hx
      simp only [List.mem_cons] at hx
      rcases hx with rfl | rfl | rfl | rfl | hx
      · exact Or.inr ⟨_, rfl⟩
      · exact Or.inr ⟨_, rfl⟩
      · exact Or.inr ⟨_, rfl⟩
      · exact Or.inr ⟨_, rfl⟩
      · exact ih x hx

theorem encodeB64_filter_ws (l : List ℕ) :
    (encodeB64 l).filter (fun c => !isB64Ws c) = encodeB64 l := by
  rw [List.filter_eq_self]
  intro c hc
  rcases encodeB64_mem_shape l c hc with rfl | ⟨v, rfl⟩
  · rfl
  · rw [b64char_not_ws]
    rfl

theorem stripPad_nil : stripPad [] = [] := rfl

theorem stripPad_append4 (u v : List ℕ) (hu4 : u.length % 4 = 0)
    (hv4 : v.length % 4 = 0) (hvne : v ≠ []) :
    stripPad (u ++ v) = u ++ stripPad v := by
  have hvpos : 0 < v.length := List.length_pos.mpr hvne
  have hge4 : 4 ≤ v.length := by omega
  have hdne : v.dropLast ≠ [] := by
    intro hbad
    have := List.length_dropLast v
    rw [hbad] at this
    simp at this
    omega
  have h1 : (u ++ v).getLast? = v.getLast? :=
    List.getLast?_append_of_ne_nil u hvne
  have h2 : (u ++ v).dropLast = u ++ v.dropLast :=
    List.dropLast_append_of_ne_nil u hvne
  have h3 : (u ++ v.dropLast).getLast? = v.dropLast.getLast? :=
    List.getLast?_append_of_ne_nil u hdne
  have h4 : (u ++ v.dropLast).dropLast = u ++ v.dropLast.dropLast :=
    List.dropLast_append_of_ne_nil u hdne
  unfold stripPad
  rw [List.length_append, if_pos (by omega), if_pos hv4, h1, h2]
  by_cases hA : v.getLast? = some 61
  · rw [if_pos hA, if_pos hA, h3, h4]
    by_cases hB : v.dropLast.getLast? = some 61
    · rw [if_pos hB, if_pos hB]
    · rw [if_neg hB, if_neg hB]
  · rw [if_neg hA, if_neg hA]

theorem bytesOfSextets_nil : bytesOfSextets [] = some [] := by
  simp [bytesOfSextets]

theorem bytesOfSextets_two (s1 s2 : ℕ) :
    bytesOfSextets [s1, s2] = some [s1 * 4 + s2 / 16] := by
  simp [bytesOfSextets]

theorem bytesOfSextets_three (s1 s2 s3 : ℕ) :
    bytesOfSextets [s1, s2, s3] =
      some [s1 * 4 + s2 / 16, s2 % 16 * 16 + s3 / 4] := by
  simp [bytesOfSextets]

theorem bytesOfSextets_cons4 (s1 s2 s3 s4 : ℕ) (rest : List ℕ) :
    bytesOfSextets (s1 :: s2 :: s3 :: s4 :: rest) =
      (bytesOfSextets rest).map fun bs =>
        (s1 * 4 + s2 / 16) :: (s2 % 16 * 16 + s3 / 4) ::
        (s3 % 4 * 64 + s4) :: bs := by
  simp [bytesOfSextets]

theorem b64_decode_encode_parts (l : List ℕ) :
    (∀ b ∈ l, b < 256) →
      (stripPad (encodeB64 l)).length % 4 ≠ 1 ∧
      ∃ vs, (stripPad (encodeB64 l)).mapM b64val = some vs ∧
        bytesOfSextets vs = some l := by
  induction l using encodeB64.induct with
  | case1 =>
      intro _
      rw [encodeB64_nil, stripPad_nil]
      exact ⟨by norm_num, [], by rw [List.mapM_nil]; rfl, bytesOfSextets_nil⟩
  | case2 a =>
      intro hb
      have ha : a < 256 := hb a (by simp)
      have h1 : a / 4 < 64 := by omega
      have h2 : a % 4 * 16 < 64 := by omega
      rw [encodeB64_one]
      have hsp : stripPad [b64char (a / 4), b64char (a % 4 * 16), 61, 61] =
          [b64char (a / 4), b64char (a % 4 * 16)] := by
        unfold stripPad
        rw [if_pos (by simp), if_pos (by rfl), if_pos (by rfl)]
        rfl
      rw [hsp]
      refine ⟨by norm_num, [a / 4, a % 4 * 16], ?_, ?_⟩
      · rw [List.mapM_cons, List.mapM_cons, List.mapM_nil,
            b64val_b64char h1, b64val_b64char h2]
        rfl
      · rw [bytesOfSextets_two,
            show a / 4 * 4 + a % 4 * 16 / 16 = a by omega]
  | case3 a b =>
      intro hb
      have ha : a < 256 := hb a (by simp)
      have hbb : b < 256 := hb b (by simp)
      have h1 : a / 4 < 64 := by omega
      have h2 : a % 4 * 16 + b / 16 < 64 := by omega
      have h3 : b % 16 * 4 < 64 := by omega
      rw [encodeB64_two]
      have hsp : stripPad [b64char (a / 4), b64char (a % 4 * 16 + b / 16),
          b64char (b % 16 * 4), 61] =
          [b64char (a / 4), b64char (a % 4 * 16 + b / 16),
           b64char (b % 16 * 4)] := by
        unfold stripPad
        rw [if_pos (by simp), if_pos (by rfl),
            if_neg (by
              show ¬ (some (b64char (b % 16 * 4)) = some 61)
              simp only [Option.some.injEq]
              exact b64char_ne_pad h3)]
        rfl
      rw [hsp]
      refine ⟨by norm_num, [a / 4, a % 4 * 16 + b / 16, b % 16 * 4], ?_, ?_⟩
      · rw [List.mapM_cons, List.mapM_cons, List.mapM_cons, List.mapM_nil,
            b64val_b64char h1, b64val_b64char h2, b64val_b64char h3]
        rfl
      · rw [bytesOfSextets_three,
            show a / 4 * 4 + (a % 4 * 16 + b / 16) / 16 = a by omega,
            show (a % 4 * 16 + b / 16) % 16 * 16 + b % 16 * 4 / 4 = b by omega]
  | case4 a b c rest ih =>
      intro hb
      have ha : a < 256 := hb a (by simp)
      have hbb : b < 256 := hb b (by simp)
      have hc : c < 256 := hb c (by simp)
      have hrest : ∀ x ∈ rest, x < 256 := fun x hx => hb x (by simp [hx])
      have h1 : a / 4 < 64 := by omega
      have h2 : a % 4 * 16 + b / 16 < 64 := by omega
      have h3 : b % 16 * 4 + c / 64 < 64 := by omega
      have h4 : c % 64 < 64 := by omega
      obtain ⟨hlen4, vs, hmap, hbytes⟩ := ih hrest
      rw [encodeB64_cons3]
      have hsp : stripPad (b64char (a / 4) ::
          b64char (a % 4 * 16 + b / 16) :: b64char (b % 16 * 4 + c / 64) ::
          b64char (c % 64) :: encodeB64 rest) =
          b64char (a / 4) :: b64char (a % 4 * 16 + b / 16) ::
          b64char (b % 16 * 4 + c / 64) :: b64char (c % 64) ::
          stripPad (encodeB64 rest) := by
        by_cases hre : encodeB64 rest = []
        · rw [hre, stripPad_nil]
          unfold stripPad
          rw [if_pos (by simp),
              if_neg (by
                show ¬ (some (b64char (c % 64)) = some 61)
                simp only [Option.some.injEq]
                exact b64char_ne_pad h4)]
        · show stripPad ([b64char (a / 4), b64char (a % 4 * 16 + b / 16),
              b64char (b % 16 * 4 + c / 64), b64char (c % 64)] ++
              encodeB64 rest) = _
          rw [stripPad_append4 _ _ (by simp) (encodeB64_length_mod rest) hre]
          rfl
      rw [hsp]
      have hT4 := encodeB64_length_mod rest
      refine ⟨?_,
        a / 4 :: (a % 4 * 16 + b / 16) :: (b % 16 * 4 + c / 64) ::
          c % 64 :: vs, ?_, ?_⟩
      · simp only [List.length_cons]
        omega
      · rw [List.mapM_cons, List.mapM_cons, List.mapM_cons, List.mapM_cons,
            b64val_b64char h1, b64val_b64char h2, b64val_b64char h3,
            b64val_b64char h4, hmap]
        rfl
      · rw [bytesOfSextets_cons4, hbytes, Option.map_some',
            show a / 4 * 4 + (a % 4 * 16 + b / 16) / 16 = a by omega,
            show (a % 4 * 16 + b / 16) % 16 * 16 +
              (b % 16 * 4 + c / 64) / 4 = b by omega,
            show (b % 16 * 4 + c / 64) % 4 * 64 + c % 64 = c by omega]

/-- C6: the base64 decoder inverts the encoder on every byte sequence,
including the empty one: decode(encode(b)) = b. -/
theorem c6_base64_roundtrip (l : List ℕ) (hl : ∀ b ∈ l, b < 256) :
    decodeB64 (encodeB64 l) = some l := by
  obtain ⟨h4, vs, hmap, hbytes⟩ := b64_decode_encode_parts l hl
  unfold decodeB64
  rw [encodeB64_filter_ws l, if_neg h4, hmap]
  simpa using hbytes

/-- C6 witness: the round trip evaluated on the concrete bytes of "Man"
and on the empty sequence. -/
theorem c6_base64_roundtrip_witness :
    decodeB64 (encodeB64 [77, 97, 110]) = some [77, 97, 110] ∧
    decodeB64 (encodeB64 []) = some [] :=
  ⟨c6_base64_roundtrip [77, 97, 110] (by decide),
   c6_base64_roundtrip [] (by decide)⟩

/-! ## Dialogue script parser (`parseScript`, src/App.tsx)

`parseScript` splits the script on newlines and matches each line against
`/\[(\d+\.?\d*)\] DIALOGUE: (Speaker \d+): \(([^,]+), ([^)]+)\) \[([^\]]+)\] (.*)/`,
building a `DialogueLine` from the six captures.  The regex is translated
into a small backtracking matcher with JavaScript semantics for this
alternation-free pattern: leftmost match start, depth-first greedy
preference with backtracking.  `parseFloat` and `trim` are modelled on the
grammar subsets these captures can produce; `none` models NaN. -/

def isDigitChar (c : Char) : Bool := decide (48 ≤ c.toNat ∧ c.toNat ≤ 57)

def isLineTerm (c : Char) : Bool :=
  c.toNat == 10 || c.toNat == 13 || c.toNat == 8232 || c.toNat == 8233

inductive CClass
  | digit
  | anyDot
  | notComma
  | notRParen
  | notRBracket
  | chr (c : Char)
deriving DecidableEq

def CClass.test : CClass → Char → Bool
  | .digit, c => isDigitChar c
  | .anyDot, c => !(isLineTerm c)
  | .notComma, c => c != ','
  | .notRParen, c => c != ')'
  | .notRBracket, c => c != ']'
  | .chr d, c => c == d

inductive GItem
  | lit (s : List Char)
  | optC (cl : CClass)
  | manyC (cl : CClass)
  | many1C (cl : CClass)
deriving DecidableEq

def litMatch : List Char → List Char → Option (List Char)
  | [], s => some s
  | _ :: _, [] => none
  | c :: t, d :: s => if c = d then litMatch t s else none

def greedyCands (cl : CClass) (minLen : ℕ) (s : List Char) :
    List (List Char × List Char) :=
  (List.range ((s.takeWhile cl.test).length + 1)).reverse.filterMap fun k =>
    if minLen ≤ k then some (s.take k, s.drop k) else none

def gItemCands : GItem → List Char → List (List Char × List Char)
  | .lit t, s =>
      match litMatch t s with
      | some r => [(t, r)]
      | none => []
  | .optC cl, s =>
      match s with
      | [] => [([], [])]
      | c :: t => if cl.test c then [([c], t), ([], c :: t)] else [([], c :: t)]
  | .manyC cl, s => greedyCands cl 0 s
  | .many1C cl, s => greedyCands cl 1 s

def gSeqCands : List GItem → List Char → List (List Char × List Char)
  | [], s => [([], s)]
  | g :: gs, s =>
      (gItemCands g s).flatMap fun p =>
        (gSeqCands gs p.2).map fun q => (p.1 ++ q.1, q.2)

inductive RItem
  | lit (s : List Char)
  | group (gs : List GItem)

def rSeqMatch : List RItem → List Char → Option (List (List Char))
  | [], _ => some []
  | RItem.lit t :: rs, s =>
      match litMatch t s with
      | some r => rSeqMatch rs r
      | none => none
  | RItem.group gs :: rs, s =>
      (gSeqCands gs s).findSome? fun p =>
        (rSeqMatch rs p.2).map fun caps => p.1 :: caps

def scanMatch (rs : List RItem) : List Char → Option (List (List Char))
  | [] => rSeqMatch rs []
  | c :: t =>
      match rSeqMatch rs (c :: t) with
      | some caps => some caps
      | none => scanMatch rs t

def litDialogue : String := "] DIALOGUE: "
def litSpeaker : String := "Speaker "
def litColonParen : String := ": ("
def litCommaSp : String := ", "
def litParenBrack : String := ") ["
def litBrackSp : String := "] "

def dialogueRegexItems : List RItem :=
  [RItem.lit ['['],
   RItem.group [GItem.many1C CClass.digit, GItem.optC (CClass.chr '.'),
                GItem.manyC CClass.digit],
   RItem.lit litDialogue.toList,
   RItem.group [GItem.lit litSpeaker.toList, GItem.many1C CClass.digit],
   RItem.lit litColonParen.toList,
   RItem.group [GItem.many1C CClass.notComma],
   RItem.lit litCommaSp.toList,
   RItem.group [GItem.many1C CClass.notRParen],
   RItem.lit litParenBrack.toList,
   RItem.group [GItem.many1C CClass.notRBracket],
   RItem.lit litBrackSp.toList,
   RItem.group [GItem.manyC CClass.anyDot]]

def isJSWsChar (c : Char) : Bool :=
  c.toNat == 9 || c.toNat == 10 || c.toNat == 11 || c.toNat == 12 ||
  c.toNat == 13 || c.toNat == 32 || c.toNat == 160 || c.toNat == 5760 ||
  (decide (8192 ≤ c.toNat) && decide (c.toNat ≤ 8202)) ||
  c.toNat == 8232 || c.toNat == 8233 || c.toNat == 8239 ||
  c.toNat == 8287 || c.toNat == 12288 || c.toNat == 65279

def trimJS (s : List Char) : List Char :=
  ((s.dropWhile isJSWsChar).reverse.dropWhile isJSWsChar).reverse

def digitsVal (ds : List Char) : ℕ :=
  ds.foldl (fun acc c => acc * 10 + (c.toNat - 48)) 0

def parseFloatNoSign (t : List Char) : Option ℚ :=
  let ip := t.takeWhile isDigitChar
  match t.dropWhile isDigitChar with
  | c :: r2 =>
      if c = '.' then
        let fp := r2.takeWhile isDigitChar
        if ip.isEmpty && fp.isEmpty then none
        else some ((digitsVal ip : ℚ) + (digitsVal fp : ℚ) / 10 ^ fp.length)
      else if ip.isEmpty then none else some ((digitsVal ip : ℚ))
  | [] => if ip.isEmpty then none else some ((digitsVal ip : ℚ))

def parseFloatJS (s : List Char) : Option ℚ :=
  match s.dropWhile isJSWsChar with
  | [] => none
  | c :: t =>
      if c = '-' then (parseFloatNoSign t).map (fun q => -q)
      else if c = '+' then parseFloatNoSign t
      else parseFloatNoSign (c :: t)

structure DialogueLine where
  time : Option ℚ
  speaker : List Char
  age : List Char
  gender : List Char
  performanceCue : List Char
  text : List Char
deriving DecidableEq

def parseScript (script : List Char) : List DialogueLine :=
  (script.splitOn '\n').filterMap fun line =>
    (scanMatch dialogueRegexItems line).map fun caps =>
      { time := parseFloatJS (caps.getD 0 [])
        speaker := caps.getD 1 []
        age := trimJS (caps.getD 2 [])
        gender := trimJS (caps.getD 3 [])
        performanceCue := trimJS (caps.getD 4 [])
        text := trimJS (caps.getD 5 []) }

def exampleLine : String :=
  "[2.350] DIALOGUE: Speaker 1: (Child, Male) [curiously] Pop goes the pebble."

def exSpeaker : String := "Speaker 1"
def exAge : String := "Child"
def exGender : String := "Male"
def exCue : String := "curiously"
def exText : String := "Pop goes the pebble."

def tsStr : String := "2.350"
def twoStr : String := "2"
def frStr : String := "350"

/-- C8: parsing the single example line yields exactly one DialogueLine
with the expected fields. -/
theorem c8_example_parse :
    parseScript exampleLine.toList =
      [{ time := some ((47 : ℚ)/20), speaker := exSpeaker.toList,
         age := exAge.toList, gender := exGender.toList,
         performanceCue := exCue.toList, text := exText.toList }] := by
  have hps : parseScript exampleLine.toList =
      [{ time := parseFloatJS tsStr.toList, speaker := exSpeaker.toList,
         age := exAge.toList, gender := exGender.toList,
         performanceCue := exCue.toList, text := exText.toList }] := rfl
  have hpf0 : parseFloatJS tsStr.toList =
      some ((digitsVal twoStr.toList : ℚ) + (digitsVal frStr.toList : ℚ) /
        10 ^ frStr.toList.length) := rfl
  have hval : (digitsVal twoStr.toList : ℚ) + (digitsVal frStr.toList : ℚ) /
      10 ^ frStr.toList.length = 47/20 := by
    rw [show digitsVal twoStr.toList = 2 from rfl,
        show digitsVal frStr.toList = 350 from rfl,
        show frStr.toList.length = 3 from rfl]
    norm_num
  rw [hps, hpf0, hval]

theorem scanMatch_none_of_no_lbracket (line : List Char)
    (h : ('[' : Char) ∉ line) : scanMatch dialogueRegexItems line = none := by
  induction line with
  | nil => rfl
  | cons c t ih =>
      have hc : ('[' : Char) ≠ c := fun hh => h (by rw [hh]; exact List.mem_cons_self c t)
      have ht : ('[' : Char) ∉ t := fun hh => h (List.mem_cons_of_mem c hh)
      have hl : litMatch ['['] (c :: t) = none := by
        unfold litMatch
        rw [if_neg hc]
      have hr : rSeqMatch dialogueRegexItems (c :: t) = none := by
        simp only [dialogueRegexItems, rSeqMatch, hl]
      simp only [scanMatch, hr]
      exact ih ht

/-- C9: a script none of whose lines matches the dialogue grammar parses to
the empty list; in particular a script of narration lines containing no '['
(so no bracketed timestamp) parses to the empty list, with no error. -/
theorem c9_no_match_empty (script : List Char) :
    ((∀ line ∈ script.splitOn '\n', scanMatch dialogueRegexItems line = none) →
      parseScript script = []) ∧
    ((∀ line ∈ script.splitOn '\n', ('[' : Char) ∉ line) →
      parseScript script = []) := by
  have hmain : (∀ line ∈ script.splitOn '\n',
      scanMatch dialogueRegexItems line = none) → parseScript script = [] := by
    intro h
    unfold parseScript
    rw [List.filterMap_eq_nil_iff]
    intro line hline
    rw [h line hline]
    rfl
  exact ⟨hmain, fun h => hmain fun line hl =>
    scanMatch_none_of_no_lbracket line (h line hl)⟩

def narrationScript : String :=
  "A gentle breeze rustles the leaves.\nThe door creaks shut."

/-- C9 witness: a concrete two-line narration script parses to the empty
list. -/
theorem c9_no_match_empty_witness : parseScript narrationScript.toList = [] :=
  (c9_no_match_empty narrationScript.toList).2 (by decide)

theorem takeWhile_length_le (p : Char → Bool) (s : List Char) :
    (s.takeWhile p).length ≤ s.length := by
  induction s with
  | nil => simp
  | cons a t ih =>
      rw [List.takeWhile_cons]
      by_cases hpa : p a = true
      · rw [if_pos hpa]
        simpa using ih
      · rw [if_neg hpa]
        simp

theorem take_of_le_takeWhile (p : Char → Bool) :
    ∀ (s : List Char) (k : ℕ), k ≤ (s.takeWhile p).length →
      ∀ c ∈ s.take k, p c = true := by
  intro s
  induction s with
  | nil => intro k hk c hc; simp at hc
  | cons a t ih =>
      intro k hk c hc
      by_cases hpa : p a = true
      · rw [List.takeWhile_cons, if_pos hpa] at hk
        cases k with
        | zero => simp at hc
        | succ k' =>
            rw [List.take_succ_cons] at hc
            rcases List.mem_cons.mp hc with rfl | hc'
            · exact hpa
            · exact ih k' (by simpa using hk) c hc'
      · rw [List.takeWhile_cons, if_neg hpa] at hk
        have hk0 : k = 0 := by simpa using hk
        rw [hk0] at hc
        simp at hc

theorem greedyCands_shape (cl : CClass) (m : ℕ) (s : List Char)
    (p : List Char × List Char) (hp : p ∈ greedyCands cl m s) :
    m ≤ p.1.length ∧ ∀ c ∈ p.1, cl.test c = true := by
  unfold greedyCands at hp
  rw [List.mem_filterMap] at hp
  obtain ⟨k, hk, hik⟩ := hp
  rw [List.mem_reverse, List.mem_range] at hk
  have hkle : k ≤ (s.takeWhile cl.test).length := by omega
  by_cases hm : m ≤ k
  · rw [if_pos hm] at hik
    obtain rfl : (s.take k, s.drop k) = p := Option.some.inj hik
    have hlen : (s.take k).length = k := by
      rw [List.length_take]
      have h2 := takeWhile_length_le cl.test s
      omega
    exact ⟨by rw [hlen]; exact hm, take_of_le_takeWhile cl.test s k hkle⟩
  · rw [if_neg hm] at hik
    cases hik

theorem gItemCands_many1 (cl : CClass) (s : List Char)
    (p : List Char × List Char) (hp : p ∈ gItemCands (GItem.many1C cl) s) :
    p.1 ≠ [] ∧ ∀ c ∈ p.1, cl.test c = true := by
  have h := greedyCands_shape cl 1 s p hp
  refine ⟨?_, h.2⟩
  intro hbad
  rw [hbad] at h
  simp at h

theorem gItemCands_opt (cl : CClass) (s : List Char)
    (p : List Char × List Char) (hp : p ∈ gItemCands (GItem.optC cl) s) :
    p.1 = [] ∨ ∃ c, cl.test c = true ∧ p.1 = [c] := by
  cases s with
  | nil =>
      simp only [gItemCands, List.mem_singleton] at hp
      rw [hp]
      exact Or.inl rfl
  | cons c t =>
      simp only [gItemCands] at hp
      by_cases hct : cl.test c = true
      · rw [if_pos hct] at hp
        simp only [List.mem_cons, List.not_mem_nil, or_false] at hp
        rcases hp with rfl | rfl
        · exact Or.inr ⟨c, hct, rfl⟩
        · exact Or.inl rfl
      · rw [if_neg hct] at hp
        simp only [List.mem_singleton] at hp
        rw [hp]
        exact Or.inl rfl

theorem gSeqCands_sub (g : GItem) (gs : List GItem) (s : List Char)
    (p : List Char × List Char) (hp : p ∈ gSeqCands (g :: gs) s) :
    ∃ u q, u ∈ gItemCands g s ∧ q ∈ gSeqCands gs u.2 ∧ p = (u.1 ++ q.1, q.2) := by
  simp only [gSeqCands, List.mem_flatMap, List.mem_map] at hp
  obtain ⟨u, hu, q, hq, hpq⟩ := hp
  exact ⟨u, q, hu, hq, hpq.symm⟩

theorem group1_capture_shape (r : List Char) (p : List Char × List Char)
    (hp : p ∈ gSeqCands [GItem.many1C CClass.digit,
      GItem.optC (CClass.chr '.'), GItem.manyC CClass.digit] r) :
    ∃ u1 u2 u3 : List Char, p.1 = u1 ++ (u2 ++ u3) ∧ u1 ≠ [] ∧
      (∀ c ∈ u1, isDigitChar c = true) ∧ (u2 = [] ∨ u2 = ['.']) ∧
      (∀ c ∈ u3, isDigitChar c = true) := by
  obtain ⟨u, q, hu, hq, hpq⟩ := gSeqCands_sub _ _ _ _ hp
  obtain ⟨v, w, hv, hw, hqw⟩ := gSeqCands_sub _ _ _ _ hq
  obtain ⟨x, y, hx, hy, hwy⟩ := gSeqCands_sub _ _ _ _ hw
  have hynil : y = ([], x.2) := by simpa [gSeqCands] using hy
  obtain ⟨hu1ne, hu1d⟩ := gItemCands_many1 _ _ _ hu
  have hod := gItemCands_opt _ _ _ hv
  have hxd := (greedyCands_shape _ 0 _ _ hx).2
  refine ⟨u.1, v.1, x.1, ?_, hu1ne, ?_, ?_, ?_⟩
  · rw [hpq, hqw, hwy, hynil]
    simp
  · intro c hc
    have := hu1d c hc
    simpa [CClass.test] using this
  · rcases hod with hv0 | ⟨c, hct, hvc⟩
    · exact Or.inl hv0
    · right
      have hcd : c = '.' := by simpa [CClass.test] using hct
      rw [hvc, hcd]
  · intro c hc
    have := hxd c hc
    simpa [CClass.test] using this

theorem scanMatch_some (rs : List RItem) (s : List Char)
    (caps : List (List Char)) (h : scanMatch rs s = some caps) :
    ∃ t : List Char, rSeqMatch rs t = some caps := by
  induction s with
  | nil => exact ⟨[], h⟩
  | cons c t ih =>
      rw [scanMatch] at h
      cases hr : rSeqMatch rs (c :: t) with
      | some caps2 =>
          rw [hr] at h
          refine ⟨c :: t, ?_⟩
          rw [hr]
          exact h
      | none =>
          rw [hr] at h
          exact ih h

theorem rSeq_dialogue_first_capture (t : List Char) (caps : List (List Char))
    (h : rSeqMatch dialogueRegexItems t = some caps) :
    ∃ u1 u2 u3 : List Char, caps.getD 0 [] = u1 ++ (u2 ++ u3) ∧ u1 ≠ [] ∧
      (∀ c ∈ u1, isDigitChar c = true) ∧ (u2 = [] ∨ u2 = ['.']) ∧
      (∀ c ∈ u3, isDigitChar c = true) := by
  simp only [dialogueRegexItems, rSeqMatch] at h
  split at h
  case _ r heq =>
    obtain ⟨p, hpmem, hpf⟩ := List.exists_of_findSome?_eq_some h
    rw [Option.map_eq_some'] at hpf
    obtain ⟨caps2, hc2, hcaps⟩ := hpf
    obtain ⟨u1, u2, u3, hcap, h1, h2, h3, h4⟩ := group1_capture_shape r p hpmem
    refine ⟨u1, u2, u3, ?_, h1, h2, h3, h4⟩
    rw [← hcaps]
    exact hcap
  case _ heq => cases h

theorem digit_not_ws {c : Char} (h : isDigitChar c = true) :
    isJSWsChar c = false := by
  simp only [isDigitChar, decide_eq_true_eq] at h
  simp only [isJSWsChar, Bool.or_eq_false_iff, beq_eq_false_iff_ne, ne_eq,
    Bool.and_eq_false_iff, decide_eq_false_iff_not, not_le]
  omega

theorem digit_ne_of_code {c : Char} (h : isDigitChar c = true) (d : Char)
    (hd : d.toNat < 48) : c ≠ d := by
  intro hcd
  rw [hcd] at h
  simp only [isDigitChar, decide_eq_true_eq] at h
  omega

theorem takeWhile_all (p : Char → Bool) (l : List Char)
    (h : ∀ c ∈ l, p c = true) : l.takeWhile p = l := by
  induction l with
  | nil => rfl
  | cons a t ih =>
      rw [List.takeWhile_cons, if_pos (h a (by simp)),
          ih fun c hc => h c (by simp [hc])]

theorem dropWhile_all (p : Char → Bool) (l : List Char)
    (h : ∀ c ∈ l, p c = true) : l.dropWhile p = [] := by
  induction l with
  | nil => rfl
  | cons a t ih =>
      rw [List.dropWhile_cons, if_pos (h a (by simp))]
      exact ih fun c hc => h c (by simp [hc])

theorem takeWhile_append_all (p : Char → Bool) (l1 l2 : List Char)
    (h : ∀ c ∈ l1, p c = true) :
    (l1 ++ l2).takeWhile p = l1 ++ l2.takeWhile p := by
  induction l1 with
  | nil => simp
  | cons a t ih =>
      rw [List.cons_append, List.takeWhile_cons, if_pos (h a (by simp)),
          ih fun c hc => h c (by simp [hc]), List.cons_append]

theorem dropWhile_append_all (p : Char → Bool) (l1 l2 : List Char)
    (h : ∀ c ∈ l1, p c = true) :
    (l1 ++ l2).dropWhile p = l2.dropWhile p := by
  induction l1 with
  | nil => simp
  | cons a t ih =>
      rw [List.cons_append, List.dropWhile_cons, if_pos (h a (by simp))]
      exact ih fun c hc => h c (by simp [hc])

theorem parseFloatNoSign_group1 (d1 u2 u3 : List Char) (hne : d1 ≠ [])
    (hd : ∀ c ∈ d1, isDigitChar c = true) (h2 : u2 = [] ∨ u2 = ['.'])
    (h3 : ∀ c ∈ u3, isDigitChar c = true) :
    ∃ q : ℚ, parseFloatNoSign (d1 ++ (u2 ++ u3)) = some q ∧ 0 ≤ q := by
  obtain ⟨c0, d1', rfl⟩ := List.exists_cons_of_ne_nil hne
  rcases h2 with rfl | rfl
  · have hall : ∀ c ∈ c0 :: (d1' ++ u3), isDigitChar c = true := by
      intro c hc
      simp only [List.mem_cons, List.mem_append] at hc
      rcases hc with rfl | hc | hc
      exacts [hd c (by simp), hd c (by simp [hc]), h3 c hc]
    have hdrop := dropWhile_all isDigitChar _ hall
    have htake := takeWhile_all isDigitChar _ hall
    refine ⟨(digitsVal (c0 :: (d1' ++ u3)) : ℚ), ?_, Nat.cast_nonneg _⟩
    simp only [List.cons_append, List.nil_append]
    simp only [parseFloatNoSign, hdrop, htake, List.isEmpty_cons]
    rfl
  · have hdrop : (c0 :: (d1' ++ '.' :: u3)).dropWhile isDigitChar =
        '.' :: u3 := by
      show ((c0 :: d1') ++ ('.' :: u3)).dropWhile isDigitChar = '.' :: u3
      rw [dropWhile_append_all isDigitChar _ _ hd, List.dropWhile_cons,
          if_neg (by decide)]
    have htake : (c0 :: (d1' ++ '.' :: u3)).takeWhile isDigitChar =
        c0 :: d1' := by
      show ((c0 :: d1') ++ ('.' :: u3)).takeWhile isDigitChar = c0 :: d1'
      rw [takeWhile_append_all isDigitChar _ _ hd, List.takeWhile_cons,
          if_neg (by decide), List.append_nil]
    refine ⟨(digitsVal (c0 :: d1') : ℚ) +
      (digitsVal (u3.takeWhile isDigitChar) : ℚ) /
        10 ^ (u3.takeWhile isDigitChar).length, ?_, by positivity⟩
    simp only [List.cons_append, List.nil_append]
    simp only [parseFloatNoSign, hdrop, htake, List.isEmpty_cons,
      Bool.false_and]
    rfl

theorem parseFloat_group1 (u1 u2 u3 : List Char) (h1 : u1 ≠ [])
    (h1d : ∀ c ∈ u1, isDigitChar c = true) (h2 : u2 = [] ∨ u2 = ['.'])
    (h3 : ∀ c ∈ u3, isDigitChar c = true) :
    ∃ q : ℚ, parseFloatJS (u1 ++ (u2 ++ u3)) = some q ∧ 0 ≤ q := by
  obtain ⟨c0, u1', rfl⟩ := List.exists_cons_of_ne_nil h1
  have hc0 : isDigitChar c0 = true := h1d c0 (by simp)
  have hdw : ((c0 :: u1') ++ (u2 ++ u3)).dropWhile isJSWsChar =
      c0 :: (u1' ++ (u2 ++ u3)) := by
    rw [List.cons_append, List.dropWhile_cons, if_neg (by simp [digit_not_ws hc0])]
  obtain ⟨q, hq, hq0⟩ := parseFloatNoSign_group1 (c0 :: u1') u2 u3
    (by simp) h1d h2 h3
  refine ⟨q, ?_, hq0⟩
  simp only [parseFloatJS, hdw,
    if_neg (digit_ne_of_code hc0 '-' (by decide)),
    if_neg (digit_ne_of_code hc0 '+' (by decide))]
  exact hq

/-- C10: every DialogueLine produced by parseScript has a finite,
nonnegative time: the timestamp capture is digits with an optional decimal
point, so its parseFloat is a nonnegative rational (never NaN). -/
theorem c10_parsed_time_nonneg (script : List Char) :
    ∀ dl ∈ parseScript script, ∃ q : ℚ, dl.time = some q ∧ 0 ≤ q := by
  intro dl hdl
  unfold parseScript at hdl
  rw [List.mem_filterMap] at hdl
  obtain ⟨line, hline, hmk⟩ := hdl
  cases hscan : scanMatch dialogueRegexItems line with
  | none => rw [hscan] at hmk; simp at hmk
  | some caps =>
      rw [hscan, Option.map_some'] at hmk
      obtain rfl := Option.some.inj hmk
      obtain ⟨t2, ht2⟩ := scanMatch_some _ _ _ hscan
      obtain ⟨u1, u2, u3, hcap, h1, h2, h3, h4⟩ :=
        rSeq_dialogue_first_capture t2 caps ht2
      show ∃ q, parseFloatJS (caps.getD 0 []) = some q ∧ 0 ≤ q
      rw [hcap]
      exact parseFloat_group1 u1 u2 u3 h1 h2 h3 h4

def sevenStr : String := "7"
def miniScript : String := "[7] DIALOGUE: Speaker 2: (Adult, Female) [calm] Hi."
def miniSpeaker : String := "Speaker 2"
def miniAge : String := "Adult"
def miniGender : String := "Female"
def miniCue : String := "calm"
def miniText : String := "Hi."

/-- C10 witness: the time of a concrete parsed line is finite and
nonnegative. -/
theorem c10_parsed_time_nonneg_witness :
    ∃ q : ℚ, (DialogueLine.mk (parseFloatJS sevenStr.toList)
      miniSpeaker.toList miniAge.toList miniGender.toList miniCue.toList
      miniText.toList).time = some q ∧ 0 ≤ q :=
  c10_parsed_time_nonneg miniScript.toList _ (by
    show _ ∈ parseScript miniScript.toList
    rw [show parseScript miniScript.toList =
      [DialogueLine.mk (parseFloatJS sevenStr.toList) miniSpeaker.toList
        miniAge.toList miniGender.toList miniCue.toList miniText.toList]
      from rfl]
    exact List.mem_singleton.mpr rfl)

end Video2Sound
